import Mathlib

/-!
Verification of the hyperspace-sampler core (`sampler.py`, `config.py`).

Scalars are modelled as real numbers (`ℝ`); the Gaussian draws of
`np.random.normal` are modelled as an explicit noise stream supplied to the
functions, so that every run of the sampler is a deterministic function of
its noise.  `np.mod(x, 1)` is `Int.fract`, `np.mean` over a slice is a
`Finset.Ico` sum divided by the slice length, and `np.std` is the square
root of the population variance (`Real.sqrt`).  The constraint oracle
(`hyperspace.apply`, an external collaborator) is a parameter of type
`List ℝ → Bool`.  The module constants of `config.py` are gathered into a
`Config` record (`defaultConfig` holds the file's values) so that claims
quantifying over tuning values can be stated.
-/

namespace HyperspaceSampler

/-- Configuration constants of `config.py`. -/
structure Config where
  INIT_STEP_SIZE : ℝ
  MAX_STEPS : ℕ
  CHECK_STEPS : ℕ
  MIN_ACCEPT_RATE : ℝ
  MAX_ACCEPT_RATE : ℝ
  STEP_SIZE_FACTOR : ℝ
  TOLERANCE : ℝ

/-- The concrete values assigned in `config.py`:
`INIT_STEP_SIZE = .01`, `MAX_STEPS = 7000`, `CHECK_STEPS = 100`,
`MIN_ACCEPT_RATE = 0.2`, `MAX_ACCEPT_RATE = 0.8`, `STEP_SIZE_FACTOR = 0.5`,
`TOLERANCE = 0.01`. -/
noncomputable def defaultConfig : Config :=
  ⟨1/100, 7000, 100, 1/5, 4/5, 1/2, 1/100⟩

/-- `np.mod(x, 1)`: reduce a real number into the unit interval `[0,1)`. -/
noncomputable def mod1 (x : ℝ) : ℝ := Int.fract x

/-- `new_vec = np.mod(points[i] + step, 1)` of `run_step`: the current point
plus the perturbation, each coordinate reduced modulo 1. -/
noncomputable def propose (p step : List ℝ) : List ℝ :=
  List.zipWith (fun a s => mod1 (a + s)) p step

/-- Body of the per-chain loop of `run_step`: wrap the candidate, query the
oracle; if feasible replace the point (an accepted move), otherwise keep the
old point.  Returns the chain's new point and whether the move was accepted. -/
noncomputable def step_chain (apply : List ℝ → Bool) (p step : List ℝ) :
    List ℝ × Bool :=
  let new_vec := propose p step
  if apply new_vec then (new_vec, true) else (p, false)

/-- `run_step(points, hyperspace, step_size)` of `sampler.py`, with the
Gaussian draw of each chain supplied explicitly in `noise` (one perturbation
vector per chain).  Returns the new array of points and the acceptance rate
`valid_moves / npoints`. -/
noncomputable def run_step (points : List (List ℝ)) (apply : List ℝ → Bool)
    (noise : List (List ℝ)) : List (List ℝ) × ℝ :=
  let results := List.zipWith (step_chain apply) points noise
  let valid_moves := (results.filter (fun r => r.2)).length
  (results.map Prod.fst, (valid_moves : ℝ) / (points.length : ℝ))

/-- `calc_pos_mean(points)`: `np.mean(points, axis=0)`, the coordinate-wise
mean of the ensemble (the column count is the length of the first row, as
for a rectangular numpy array). -/
noncomputable def calc_pos_mean (points : List (List ℝ)) : List ℝ :=
  (List.range (points.headD []).length).map
    (fun d => ((points.map (fun p => p.getD d 0)).sum) / (points.length : ℝ))

/-- `calc_std_mean(points)`: `np.std(points, axis=0)`, the coordinate-wise
population standard deviation of the ensemble. -/
noncomputable def calc_std_mean (points : List (List ℝ)) : List ℝ :=
  (List.range (points.headD []).length).map
    (fun d =>
      let m := ((points.map (fun p => p.getD d 0)).sum) / (points.length : ℝ)
      Real.sqrt (((points.map (fun p => (p.getD d 0 - m) ^ 2)).sum) /
        (points.length : ℝ)))

/-- `np.mean(A[lo:hi])` for a history array modelled as a function. -/
noncomputable def npMean (A : ℕ → ℝ) (lo hi : ℕ) : ℝ :=
  (∑ j in Finset.Ico lo hi, A j) / ((hi - lo : ℕ) : ℝ)

/-- Population variance of `A[lo:hi]` (`np.std(...)**2`). -/
noncomputable def npVar (A : ℕ → ℝ) (lo hi : ℕ) : ℝ :=
  (∑ j in Finset.Ico lo hi, (A j - npMean A lo hi) ^ 2) / ((hi - lo : ℕ) : ℝ)

/-- `np.std(A[lo:hi])`: square root of the population variance. -/
noncomputable def npStd (A : ℕ → ℝ) (lo hi : ℕ) : ℝ :=
  Real.sqrt (npVar A lo hi)

/-- `array_stable(index, num_steps, A)` of `sampler.py`.  The history array
`A` is a function together with its allocated length `len` (`len(A)`; the
arrays are preallocated with `np.zeros(max_steps)`).  Returns `False` when
`index < 2*num_steps` or `index > len(A)-1`; otherwise compares the most
recent `num_steps` entries `A1 = A[index-num_steps+1 : index+1]` with the
preceding window `A2 = A[index-2*num_steps+1 : index-num_steps+1]`:
`check1 = |mean(A1)-mean(A2)| < config.TOLERANCE` and
`check2 = |mean(A1)-mean(A2)| < 1*sqrt(std(A1)**2 + std(A2)**2)`. -/
noncomputable def array_stable (cfg : Config) (index num_steps : ℕ)
    (A : ℕ → ℝ) (len : ℕ) : Prop :=
  if index < 2 * num_steps ∨ ((len : ℤ) - 1 < (index : ℤ)) then False
  else
    let val1 := npMean A (index - num_steps + 1) (index + 1)
    let val2 := npMean A (index - 2 * num_steps + 1) (index - num_steps + 1)
    let std1 := npStd A (index - num_steps + 1) (index + 1)
    let std2 := npStd A (index - 2 * num_steps + 1) (index - num_steps + 1)
    |val1 - val2| < cfg.TOLERANCE ∧
      |val1 - val2| < 1 * Real.sqrt (std1 ^ 2 + std2 ^ 2)

/-- Column `d` of a history of rows, as a function on step indices; entries
beyond the filled prefix are `0`, matching the `np.zeros` preallocation. -/
noncomputable def colFn (hist : List (List ℝ)) (d : ℕ) : ℕ → ℝ :=
  fun j => (hist.getD j []).getD d 0

/-- `sampler_stable(index, pos_mean, pos_std)` of `sampler.py`: every column
of `pos_mean` and every column of `pos_std` must pass `array_stable` with
window `config.CHECK_STEPS`.  `max_steps` is the allocated number of rows
(`nsteps` of `pos_mean.shape`) and `ndims` the number of columns. -/
noncomputable def sampler_stable (cfg : Config) (max_steps ndims index : ℕ)
    (pos_mean pos_std : List (List ℝ)) : Prop :=
  (∀ d < ndims, array_stable cfg index cfg.CHECK_STEPS (colFn pos_mean d) max_steps) ∧
  (∀ d < ndims, array_stable cfg index cfg.CHECK_STEPS (colFn pos_std d) max_steps)

/-- `evaluate_sampler(i)`: check in on the sampler every `config.CHECK_STEPS`
steps, i.e. when `np.mod(i, check_steps) == 0 and i > 0`. -/
def evaluate_sampler (cfg : Config) (i : ℕ) : Prop :=
  i % cfg.CHECK_STEPS = 0 ∧ 0 < i

instance (cfg : Config) (i : ℕ) : Decidable (evaluate_sampler cfg i) :=
  inferInstanceAs (Decidable (_ ∧ _))

/-- `modify_step_size(index, step_size, accept_rate)` of `sampler.py`.
If fewer than `check_steps` steps have passed, no change.  Otherwise average
the most recent `check_steps` acceptance rates; a factor outside `(0, 1]` is
coerced to `1`; a rate below `MIN_ACCEPT_RATE` shrinks the step size by
`factor`, a rate above `MAX_ACCEPT_RATE` grows it by `1/factor` provided the
result stays below `1`; otherwise the step size is unchanged.  The second
component reports whether the step size was "modified". -/
noncomputable def modify_step_size (cfg : Config) (index : ℕ) (step_size : ℝ)
    (accept_rate : ℕ → ℝ) : ℝ × Bool :=
  if index < cfg.CHECK_STEPS then (step_size, false)
  else
    let recent := npMean accept_rate (index - cfg.CHECK_STEPS + 1) (index + 1)
    let factor :=
      if cfg.STEP_SIZE_FACTOR ≤ 0 ∨ 1 < cfg.STEP_SIZE_FACTOR then 1
      else cfg.STEP_SIZE_FACTOR
    if recent < cfg.MIN_ACCEPT_RATE then (step_size * factor, true)
    else if cfg.MAX_ACCEPT_RATE < recent then
      (if step_size / factor < 1 then (step_size / factor, true)
       else (step_size, false))
    else (step_size, false)

/-- Mutable state of the `run_sampler` loop: the current points, the current
step size, and the filled prefixes of the three history arrays
(`pos_mean`, `pos_std`, `accept_rate`; row `i` holds the statistics recorded
after step `i`, rows beyond the filled prefix are the `np.zeros` default). -/
structure SState where
  points : List (List ℝ)
  step_size : ℝ
  pos_mean : List (List ℝ)
  pos_std : List (List ℝ)
  accept_rate : List ℝ

/-- The scalar history `accept_rate` as a function on step indices
(zero beyond the filled prefix, matching `np.zeros`). -/
noncomputable def rateFn (st : SState) : ℕ → ℝ :=
  fun j => st.accept_rate.getD j 0

/-- Record phase of one iteration of the `run_sampler` loop: run one step of
the chains and append the step's statistics to the histories
(`points, accept_rate[i] = run_step(...)`, `pos_mean[i] = calc_pos_mean(...)`,
`pos_std[i] = calc_std_mean(...)`). -/
noncomputable def recordStep (apply : List ℝ → Bool)
    (noise : ℕ → List (List ℝ)) (i : ℕ) (st : SState) : SState :=
  let pr := run_step st.points apply (noise i)
  ⟨pr.1, st.step_size,
    st.pos_mean ++ [calc_pos_mean pr.1],
    st.pos_std ++ [calc_std_mean pr.1],
    st.accept_rate ++ [pr.2]⟩

/-- Adaptation phase of one iteration: when `evaluate_sampler(i)` holds, call
`modify_step_size` and store the (possibly) new step size; returns the new
state together with the `step_mod` report (`false` when no check ran). -/
noncomputable def adaptStep (cfg : Config) (i : ℕ) (st : SState) :
    SState × Bool :=
  if evaluate_sampler cfg i then
    let ms := modify_step_size cfg i st.step_size (rateFn st)
    (⟨st.points, ms.1, st.pos_mean, st.pos_std, st.accept_rate⟩, ms.2)
  else (st, false)

/-- One full iteration of the loop body of `run_sampler` (ignoring the
`break`): record the step, then adapt the step size. -/
noncomputable def stepState (cfg : Config) (apply : List ℝ → Bool)
    (noise : ℕ → List (List ℝ)) (i : ℕ) (st : SState) : SState :=
  (adaptStep cfg i (recordStep apply noise i st)).1

/-- The `break` condition of the `run_sampler` loop at step `i` from state
`st`: a check runs at `i`, the freshly recorded histories pass
`sampler_stable`, and `modify_step_size` reported `step_mod = False`. -/
noncomputable def breakCond (cfg : Config) (apply : List ℝ → Bool)
    (noise : ℕ → List (List ℝ)) (max_steps ndims : ℕ) (i : ℕ)
    (st : SState) : Prop :=
  evaluate_sampler cfg i ∧
    (sampler_stable cfg max_steps ndims i (recordStep apply noise i st).pos_mean
        (recordStep apply noise i st).pos_std ∧
      (modify_step_size cfg i st.step_size
          (rateFn (recordStep apply noise i st))).2 = false)

noncomputable instance (cfg : Config) (apply : List ℝ → Bool)
    (noise : ℕ → List (List ℝ)) (max_steps ndims i : ℕ) (st : SState) :
    Decidable (breakCond cfg apply noise max_steps ndims i st) :=
  Classical.propDecidable _

/-- The `for i in range(max_steps)` loop of `run_sampler`, written with
explicit fuel.  Returns the final state and `some i` when the loop exited
through the `break` at step `i` ("Sampler stopped after i steps", the
CONVERGED exit), `none` when the step budget ran out. -/
noncomputable def sampler_loop (cfg : Config) (apply : List ℝ → Bool)
    (noise : ℕ → List (List ℝ)) (max_steps ndims : ℕ) :
    ℕ → ℕ → SState → SState × Option ℕ
  | 0, _, st => (st, none)
  | fuel + 1, i, st =>
    if breakCond cfg apply noise max_steps ndims i st then
      (stepState cfg apply noise i st, some i)
    else
      sampler_loop cfg apply noise max_steps ndims fuel (i + 1)
        (stepState cfg apply noise i st)

/-- State at entry of the loop: the initial points, the initial step size,
and empty history prefixes. -/
def init_state (points : List (List ℝ)) (step_size : ℝ) : SState :=
  ⟨points, step_size, [], [], []⟩

/-- `run_sampler(hyperspace, points, step_size, max_steps)` of `sampler.py`:
run the loop from step `0`.  `ndims = hyperspace.get_ndim()` is the column
count of the preallocated history arrays. -/
noncomputable def run_sampler (cfg : Config) (apply : List ℝ → Bool)
    (noise : ℕ → List (List ℝ)) (points : List (List ℝ)) (step_size : ℝ)
    (max_steps ndims : ℕ) : SState × Option ℕ :=
  sampler_loop cfg apply noise max_steps ndims max_steps 0
    (init_state points step_size)

/-- State of the loop just before step `i` (equivalently, after the first
`i` iterations when no `break` has fired yet). -/
noncomputable def stateAt (cfg : Config) (apply : List ℝ → Bool)
    (noise : ℕ → List (List ℝ)) (points : List (List ℝ)) (step_size : ℝ) :
    ℕ → SState
  | 0 => init_state points step_size
  | i + 1 => stepState cfg apply noise i
      (stateAt cfg apply noise points step_size i)

/-- The value of the loop variable `i` after the loop: the break step if the
loop broke, `max_steps - 1` otherwise. -/
def finalIndex (max_steps : ℕ) (stop : Option ℕ) : ℕ :=
  stop.getD (max_steps - 1)

/-- The `Warning: reached maximum number of steps` message of `run_sampler`
is printed exactly when the loop variable equals `max_steps - 1` after the
loop (`if i == max_steps-1`). -/
def emits_warning (max_steps : ℕ) (stop : Option ℕ) : Prop :=
  finalIndex max_steps stop = max_steps - 1

/-- The constraint oracle as seen by `get_constraints`, after the external
`Constraint` object has been built from the input file: its dimensionality
(`get_ndim()`), its example point (`get_example()`), and its feasibility
test (`apply`).  File reading and the construction-time exceptions
(`FileNotFoundError`, `ValueError`, `SyntaxError`) as well as the
`IndexError`/`NameError` escapes of `apply` are I/O-level failures outside
this model; `feasible` is the total feasibility test. -/
structure Space where
  ndim : ℕ
  example_point : List ℝ
  feasible : List ℝ → Bool

/-- The validation part of `get_constraints(input_file)` of `sampler.py`:
exits with an error when `len(example) < space.get_ndim()`, then exits when
the example point fails the feasibility check, and otherwise returns the
space. -/
def get_constraints (space : Space) : Except String Space :=
  if space.example_point.length < space.ndim then
    Except.error "Error: example point does not have enough dimensions"
  else if space.feasible space.example_point then Except.ok space
  else Except.error "Error: example point is invalid"

/-- Number of chains whose wrapped candidate passes the feasibility test in
one step: the accepted moves counted by `valid_moves` in `run_step`. -/
noncomputable def acceptedCount (apply : List ℝ → Bool)
    (points noise : List (List ℝ)) : ℕ :=
  ((points.zip noise).filter (fun pr => apply (propose pr.1 pr.2))).length

/-- Every coordinate of every point of the ensemble lies in `[0, 1)`. -/
def inUnit (points : List (List ℝ)) : Prop :=
  ∀ p ∈ points, ∀ x ∈ p, 0 ≤ x ∧ x < 1

open Classical in
/-- A concrete one-dimensional constraint oracle: exactly the three points
`0.4`, `0.62` and `0.5` are feasible. -/
noncomputable def oscOracle (v : List ℝ) : Bool :=
  decide (v = [(2 : ℝ)/5] ∨ v = [(31 : ℝ)/50] ∨ v = [(1 : ℝ)/2])

/-- A concrete noise stream for a two-chain run: chain 0 is pushed from the
example point `0.5` to `0.4` at step 0 and afterwards alternates between
`0.4` and `0.62`; chain 1 always receives the perturbation `0.25`, whose
candidate `0.75` is always rejected by `oscOracle`. -/
noncomputable def oscNoise : ℕ → List (List ℝ) := fun i =>
  [if i = 0 then [-(1/10 : ℝ)] else
     if i % 2 = 1 then [(11 : ℝ)/50] else [-(11/50 : ℝ)],
   [(1 : ℝ)/4]]

/-- Position of chain 0 before step `i` in the run driven by `oscNoise`. -/
noncomputable def oscPoint : ℕ → ℝ := fun i =>
  if i = 0 then 1/2 else if i % 2 = 1 then 2/5 else 31/50

/-- Row `i` of `pos_mean` in the run driven by `oscNoise`. -/
noncomputable def oscMeanRow : ℕ → ℝ := fun j =>
  if j % 2 = 0 then 9/20 else 14/25

/-- Row `i` of `pos_std` in the run driven by `oscNoise`. -/
noncomputable def oscStdRow : ℕ → ℝ := fun j =>
  if j % 2 = 0 then 1/20 else 3/50

/-- Closed form of the loop state before step `i` in the run driven by
`oscOracle` and `oscNoise` from two copies of the example point `0.5`. -/
noncomputable def oscState (i : ℕ) : SState :=
  ⟨[[oscPoint i], [(1 : ℝ)/2]], 1/100,
    (List.range i).map (fun j => [oscMeanRow j]),
    (List.range i).map (fun j => [oscStdRow j]),
    List.replicate i ((1 : ℝ)/2)⟩

/-- The complete run of the sampler on `oscOracle`/`oscNoise` with the
default configuration, `max_steps = 201`, one dimension and two chains. -/
noncomputable def oscRun : SState × Option ℕ :=
  run_sampler defaultConfig oscOracle oscNoise [[(1 : ℝ)/2], [(1 : ℝ)/2]]
    (1/100) 201 1

/-! ### Basic lemmas about a single step -/

theorem mem_zipWith {α β γ : Type} {f : α → β → γ} {l1 : List α} {l2 : List β}
    {c : γ} (h : c ∈ List.zipWith f l1 l2) :
    ∃ a b, a ∈ l1 ∧ b ∈ l2 ∧ c = f a b := by
  induction l1 generalizing l2 with
  | nil => simp at h
  | cons x xs ih =>
    cases l2 with
    | nil => simp at h
    | cons y ys =>
      simp only [List.zipWith_cons_cons, List.mem_cons] at h
      rcases h with h | h
      · exact ⟨x, y, by simp, by simp, h⟩
      · obtain ⟨a, b, ha, hb, rfl⟩ := ih h
        exact ⟨a, b, by simp [ha], by simp [hb], rfl⟩

theorem zipWith_eq_map_zip {α β γ : Type} (f : α → β → γ) (l1 : List α)
    (l2 : List β) :
    List.zipWith f l1 l2 = (l1.zip l2).map (fun pr => f pr.1 pr.2) := by
  induction l1 generalizing l2 with
  | nil => simp
  | cons x xs ih => cases l2 <;> simp [ih]

theorem step_chain_eq (apply : List ℝ → Bool) (p s : List ℝ) :
    step_chain apply p s =
      if apply (propose p s) then (propose p s, true) else (p, false) := rfl

theorem step_chain_snd (apply : List ℝ → Bool) (p s : List ℝ) :
    (step_chain apply p s).2 = apply (propose p s) := by
  rw [step_chain_eq]
  cases h : apply (propose p s) <;> simp [h]

theorem run_step_points (points noise : List (List ℝ)) (apply : List ℝ → Bool) :
    (run_step points apply noise).1 =
      List.zipWith (fun p s => (step_chain apply p s).1) points noise := by
  simp [run_step, List.map_zipWith]

theorem mem_propose {x : ℝ} {p s : List ℝ} (h : x ∈ propose p s) :
    0 ≤ x ∧ x < 1 := by
  obtain ⟨a, b, _, _, rfl⟩ := mem_zipWith h
  exact ⟨Int.fract_nonneg _, Int.fract_lt_one _⟩

theorem stepState_points (cfg : Config) (apply : List ℝ → Bool)
    (noise : ℕ → List (List ℝ)) (i : ℕ) (st : SState) :
    (stepState cfg apply noise i st).points =
      (run_step st.points apply (noise i)).1 := by
  unfold stepState adaptStep
  split <;> rfl

theorem run_step_preserves_inUnit (apply : List ℝ → Bool)
    (points noise : List (List ℝ)) (h : inUnit points) :
    inUnit (run_step points apply noise).1 := by
  intro q hq x hx
  rw [run_step_points] at hq
  obtain ⟨p, s, hp, _, rfl⟩ := mem_zipWith hq
  cases hap : apply (propose p s) with
  | true =>
    rw [step_chain_eq, if_pos hap] at hx
    exact mem_propose hx
  | false =>
    rw [step_chain_eq, if_neg (by simp [hap])] at hx
    exact h p hp x hx

/-! ### Claims about `run_step` -/

/-- C1: if every point of the ensemble satisfies the constraint oracle, then
after `run_step` every point still satisfies it — a chain's point is
replaced only when the oracle accepts the wrapped candidate and is left
unchanged otherwise, so feasibility of all points is preserved by every
step. -/
theorem run_step_preserves_feasibility (apply : List ℝ → Bool)
    (points noise : List (List ℝ)) (h : ∀ p ∈ points, apply p = true) :
    ∀ q ∈ (run_step points apply noise).1, apply q = true := by
  intro q hq
  rw [run_step_points] at hq
  obtain ⟨p, s, hp, _, rfl⟩ := mem_zipWith hq
  cases hap : apply (propose p s) with
  | true => rw [step_chain_eq, if_pos hap]; exact hap
  | false =>
    rw [step_chain_eq, if_neg (by simp [hap])]
    exact h p hp

/-- Witness for C1: a one-chain ensemble under the all-accepting oracle. -/
theorem run_step_preserves_feasibility_witness :
    (∀ p ∈ [[(1 : ℝ)/2]], (fun _ => true) p = true) ∧
      ∀ q ∈ (run_step [[(1 : ℝ)/2]] (fun _ => true) [[(0 : ℝ)]]).1,
        (fun _ => true) q = true :=
  ⟨by simp, run_step_preserves_feasibility _ _ _ (by simp)⟩

/-- C2: range postcondition — starting from an ensemble whose coordinates
all lie in `[0,1)` (the data-model invariant; each proposed candidate is
reduced coordinate-wise modulo 1 before the feasibility test), after every
step of the run every coordinate of every chain's point lies in `[0,1)`. -/
theorem run_range_invariant (cfg : Config) (apply : List ℝ → Bool)
    (noise : ℕ → List (List ℝ)) (points : List (List ℝ)) (step_size : ℝ)
    (h : inUnit points) :
    ∀ i, inUnit (stateAt cfg apply noise points step_size i).points := by
  intro i
  induction i with
  | zero => exact h
  | succ i ih =>
    have : stateAt cfg apply noise points step_size (i + 1) =
        stepState cfg apply noise i (stateAt cfg apply noise points step_size i) := rfl
    rw [this, stepState_points]
    exact run_step_preserves_inUnit _ _ _ ih

/-- Witness for C2: one chain starting at the origin, one step. -/
theorem run_range_invariant_witness :
    inUnit [[(0 : ℝ)]] ∧
      inUnit (stateAt defaultConfig (fun _ => true) (fun _ => [[(0 : ℝ)]])
        [[(0 : ℝ)]] (1/100) 1).points := by
  have h : inUnit [[(0 : ℝ)]] := by
    intro p hp x hx
    simp only [List.mem_singleton] at hp
    subst hp
    simp only [List.mem_singleton] at hx
    subst hx
    norm_num
  exact ⟨h, run_range_invariant _ _ _ _ _ h 1⟩

/-- C7: for an ensemble of `N ≥ 1` chains (one noise vector per chain), the
acceptance rate returned by `run_step` equals exactly the number of accepted
chains divided by `N`, and therefore lies in `[0, 1]`. -/
theorem acceptance_rate_exact (apply : List ℝ → Bool)
    (points noise : List (List ℝ)) (N : ℕ) (hN : points.length = N)
    (hn : noise.length = N) (h1 : 1 ≤ N) :
    (run_step points apply noise).2 =
        (acceptedCount apply points noise : ℝ) / (N : ℝ) ∧
      0 ≤ (run_step points apply noise).2 ∧
      (run_step points apply noise).2 ≤ 1 := by
  have hcount : ((List.zipWith (step_chain apply) points noise).filter
      (fun r => r.2)).length = acceptedCount apply points noise := by
    rw [zipWith_eq_map_zip, List.filter_map, List.length_map]
    unfold acceptedCount
    congr 1
    apply List.filter_congr
    intro pr _
    simp [Function.comp, step_chain_snd]
  have hle : acceptedCount apply points noise ≤ N := by
    calc acceptedCount apply points noise
        ≤ (points.zip noise).length := List.length_filter_le _ _
      _ = N := by rw [List.length_zip, hN, hn, min_self]
  have hrate : (run_step points apply noise).2 =
      (acceptedCount apply points noise : ℝ) / (N : ℝ) := by
    unfold run_step
    simp only [hcount, hN]
  have hNpos : (0 : ℝ) < (N : ℝ) := by exact_mod_cast h1
  refine ⟨hrate, ?_, ?_⟩
  · rw [hrate]
    positivity
  · rw [hrate, div_le_one hNpos]
    exact_mod_cast hle

/-- Witness for C7: a single chain whose move is accepted. -/
theorem acceptance_rate_exact_witness :
    [[(0 : ℝ)]].length = 1 ∧ [[(0 : ℝ)]].length = 1 ∧ 1 ≤ 1 ∧
      ((run_step [[(0 : ℝ)]] (fun _ => true) [[(0 : ℝ)]]).2 =
          (acceptedCount (fun _ => true) [[(0 : ℝ)]] [[(0 : ℝ)]] : ℝ) / ((1 : ℕ) : ℝ) ∧
        0 ≤ (run_step [[(0 : ℝ)]] (fun _ => true) [[(0 : ℝ)]]).2 ∧
        (run_step [[(0 : ℝ)]] (fun _ => true) [[(0 : ℝ)]]).2 ≤ 1) :=
  ⟨rfl, rfl, le_refl 1,
    acceptance_rate_exact (fun _ => true) [[(0 : ℝ)]] [[(0 : ℝ)]] 1 rfl rfl (le_refl 1)⟩

/-! ### Claims about `modify_step_size` -/

/-- C5: for any configuration (including a misconfigured factor, which is
coerced to 1) and any acceptance-rate history, a step size in `(0, 1)` stays
in `(0, 1)` after `modify_step_size`: it is never grown to reach `1` and
never driven to zero. -/
theorem step_size_bounds (cfg : Config) (index : ℕ) (s : ℝ)
    (accept_rate : ℕ → ℝ) (h0 : 0 < s) (h1 : s < 1) :
    0 < (modify_step_size cfg index s accept_rate).1 ∧
      (modify_step_size cfg index s accept_rate).1 < 1 := by
  simp only [modify_step_size]
  set g := (if cfg.STEP_SIZE_FACTOR ≤ 0 ∨ 1 < cfg.STEP_SIZE_FACTOR then (1 : ℝ)
    else cfg.STEP_SIZE_FACTOR) with hg
  have hgb : 0 < g ∧ g ≤ 1 := by
    rw [hg]
    split_ifs with h
    · norm_num
    · push_neg at h
      exact ⟨h.1, h.2⟩
  split_ifs with hidx hlow hhigh hgrow
  · exact ⟨h0, h1⟩
  · constructor
    · exact mul_pos h0 hgb.1
    · exact lt_of_le_of_lt (mul_le_of_le_one_right h0.le hgb.2) h1
  · exact ⟨div_pos h0 hgb.1, hgrow⟩
  · exact ⟨h0, h1⟩
  · exact ⟨h0, h1⟩

/-- Witness for C5 at the default configuration. -/
theorem step_size_bounds_witness :
    (0 : ℝ) < 1/100 ∧ (1 : ℝ)/100 < 1 ∧
      (0 < (modify_step_size defaultConfig 0 (1/100) (fun _ => 0)).1 ∧
        (modify_step_size defaultConfig 0 (1/100) (fun _ => 0)).1 < 1) :=
  ⟨by norm_num, by norm_num,
    step_size_bounds defaultConfig 0 (1/100) (fun _ => 0) (by norm_num) (by norm_num)⟩

/-- C4: the adjustment rule of the step-size controller for a factor in
`(0,1)` and at least `CHECK_STEPS` elapsed steps.  A mean recent acceptance
rate below `MIN_ACCEPT_RATE` shrinks the step size to `s * factor`
(a strict decrease, so under constantly low rates it strictly decreases and
never grows) and reports "modified"; a mean above `MAX_ACCEPT_RATE` grows it
to `s / factor` provided that stays below 1, reporting "modified"; if
growing would reach `1` or the mean lies in the band, the step size is
returned unchanged and reported not modified. -/
theorem controller_rule (cfg : Config) (s : ℝ) (index : ℕ)
    (accept_rate : ℕ → ℝ) (hf0 : 0 < cfg.STEP_SIZE_FACTOR)
    (hf1 : cfg.STEP_SIZE_FACTOR < 1) (hs : 0 < s)
    (hi : cfg.CHECK_STEPS ≤ index) :
    (npMean accept_rate (index - cfg.CHECK_STEPS + 1) (index + 1) <
          cfg.MIN_ACCEPT_RATE →
        modify_step_size cfg index s accept_rate =
            (s * cfg.STEP_SIZE_FACTOR, true) ∧
          s * cfg.STEP_SIZE_FACTOR < s) ∧
    (¬ npMean accept_rate (index - cfg.CHECK_STEPS + 1) (index + 1) <
          cfg.MIN_ACCEPT_RATE →
      cfg.MAX_ACCEPT_RATE <
          npMean accept_rate (index - cfg.CHECK_STEPS + 1) (index + 1) →
      s / cfg.STEP_SIZE_FACTOR < 1 →
        modify_step_size cfg index s accept_rate =
          (s / cfg.STEP_SIZE_FACTOR, true)) ∧
    (¬ npMean accept_rate (index - cfg.CHECK_STEPS + 1) (index + 1) <
          cfg.MIN_ACCEPT_RATE →
      cfg.MAX_ACCEPT_RATE <
          npMean accept_rate (index - cfg.CHECK_STEPS + 1) (index + 1) →
      ¬ s / cfg.STEP_SIZE_FACTOR < 1 →
        modify_step_size cfg index s accept_rate = (s, false)) ∧
    (¬ npMean accept_rate (index - cfg.CHECK_STEPS + 1) (index + 1) <
          cfg.MIN_ACCEPT_RATE →
      ¬ cfg.MAX_ACCEPT_RATE <
          npMean accept_rate (index - cfg.CHECK_STEPS + 1) (index + 1) →
        modify_step_size cfg index s accept_rate = (s, false)) := by
  have hnc : ¬ (cfg.STEP_SIZE_FACTOR ≤ 0 ∨ 1 < cfg.STEP_SIZE_FACTOR) := by
    push_neg
    exact ⟨hf0, hf1.le⟩
  simp only [modify_step_size, if_neg (not_lt.mpr hi), if_neg hnc]
  refine ⟨?_, ?_, ?_, ?_⟩
  · intro hlt
    rw [if_pos hlt]
    exact ⟨rfl, mul_lt_of_lt_one_right hs hf1⟩
  · intro hge hhi hgr
    rw [if_neg hge, if_pos hhi, if_pos hgr]
  · intro hge hhi hgr
    rw [if_neg hge, if_pos hhi, if_neg hgr]
  · intro hge hhi
    rw [if_neg hge, if_neg hhi]

/-- Witness for C4: the default configuration at step 100 with an all-zero
acceptance history (the conclusion's shrink clause then fires). -/
theorem controller_rule_witness :
    0 < defaultConfig.STEP_SIZE_FACTOR ∧ defaultConfig.STEP_SIZE_FACTOR < 1 ∧
      (0 : ℝ) < 1/100 ∧ defaultConfig.CHECK_STEPS ≤ 100 ∧
      ((npMean (fun _ => (0 : ℝ)) (100 - defaultConfig.CHECK_STEPS + 1) (100 + 1) <
            defaultConfig.MIN_ACCEPT_RATE →
          modify_step_size defaultConfig 100 (1/100) (fun _ => (0 : ℝ)) =
              ((1/100 : ℝ) * defaultConfig.STEP_SIZE_FACTOR, true) ∧
            (1/100 : ℝ) * defaultConfig.STEP_SIZE_FACTOR < 1/100) ∧
        (¬ npMean (fun _ => (0 : ℝ)) (100 - defaultConfig.CHECK_STEPS + 1) (100 + 1) <
              defaultConfig.MIN_ACCEPT_RATE →
          defaultConfig.MAX_ACCEPT_RATE <
              npMean (fun _ => (0 : ℝ)) (100 - defaultConfig.CHECK_STEPS + 1) (100 + 1) →
          (1/100 : ℝ) / defaultConfig.STEP_SIZE_FACTOR < 1 →
            modify_step_size defaultConfig 100 (1/100) (fun _ => (0 : ℝ)) =
              ((1/100 : ℝ) / defaultConfig.STEP_SIZE_FACTOR, true)) ∧
        (¬ npMean (fun _ => (0 : ℝ)) (100 - defaultConfig.CHECK_STEPS + 1) (100 + 1) <
              defaultConfig.MIN_ACCEPT_RATE →
          defaultConfig.MAX_ACCEPT_RATE <
              npMean (fun _ => (0 : ℝ)) (100 - defaultConfig.CHECK_STEPS + 1) (100 + 1) →
          ¬ (1/100 : ℝ) / defaultConfig.STEP_SIZE_FACTOR < 1 →
            modify_step_size defaultConfig 100 (1/100) (fun _ => (0 : ℝ)) =
              (1/100, false)) ∧
        (¬ npMean (fun _ => (0 : ℝ)) (100 - defaultConfig.CHECK_STEPS + 1) (100 + 1) <
              defaultConfig.MIN_ACCEPT_RATE →
          ¬ defaultConfig.MAX_ACCEPT_RATE <
              npMean (fun _ => (0 : ℝ)) (100 - defaultConfig.CHECK_STEPS + 1) (100 + 1) →
            modify_step_size defaultConfig 100 (1/100) (fun _ => (0 : ℝ)) =
              (1/100, false))) :=
  ⟨by norm_num [defaultConfig], by norm_num [defaultConfig], by norm_num,
    by norm_num [defaultConfig],
    controller_rule defaultConfig (1/100) 100 (fun _ => 0)
      (by norm_num [defaultConfig]) (by norm_num [defaultConfig]) (by norm_num)
      (by norm_num [defaultConfig])⟩

/-! ### Claims about `array_stable` -/

theorem npMean_of_const {A : ℕ → ℝ} {c : ℝ} (hA : ∀ j, A j = c) (lo hi : ℕ)
    (h : lo < hi) : npMean A lo hi = c := by
  unfold npMean
  rw [Finset.sum_congr rfl (fun j _ => hA j), Finset.sum_const, Nat.card_Ico,
    nsmul_eq_mul]
  have hpos : (0 : ℝ) < ((hi - lo : ℕ) : ℝ) := by
    have : 0 < hi - lo := by omega
    exact_mod_cast this
  rw [mul_comm, mul_div_assoc, div_self hpos.ne', mul_one]

theorem npVar_of_const {A : ℕ → ℝ} {c : ℝ} (hA : ∀ j, A j = c) (lo hi : ℕ) :
    npVar A lo hi = 0 := by
  unfold npVar
  by_cases h : lo < hi
  · rw [npMean_of_const hA lo hi h]
    have hz : ∀ j ∈ Finset.Ico lo hi, (A j - c) ^ 2 = 0 := fun j _ => by
      rw [hA j]; ring
    rw [Finset.sum_congr rfl hz, Finset.sum_const, smul_zero, zero_div]
  · rw [Finset.Ico_eq_empty h, Finset.sum_empty, zero_div]

theorem npStd_of_const {A : ℕ → ℝ} {c : ℝ} (hA : ∀ j, A j = c) (lo hi : ℕ) :
    npStd A lo hi = 0 := by
  rw [npStd, npVar_of_const hA]
  exact Real.sqrt_zero

theorem not_stable_of_const (cfg : Config) (index num_steps len : ℕ)
    (A : ℕ → ℝ) (c : ℝ) (hA : ∀ j, A j = c) :
    ¬ array_stable cfg index num_steps A len := by
  simp only [array_stable]
  split_ifs with hg
  · exact not_false
  · push_neg at hg
    intro hc
    have hvv : npMean A (index - num_steps + 1) (index + 1) =
        npMean A (index - 2 * num_steps + 1) (index - num_steps + 1) := by
      rcases Nat.eq_zero_or_pos num_steps with h0 | hpos
      · simp [h0]
      · have h1 : index - num_steps + 1 < index + 1 := by omega
        have h2 : index - 2 * num_steps + 1 < index - num_steps + 1 := by
          have := hg.1
          omega
        rw [npMean_of_const hA _ _ h1, npMean_of_const hA _ _ h2]
    have hs1 : npStd A (index - num_steps + 1) (index + 1) = 0 :=
      npStd_of_const hA _ _
    have hs2 : npStd A (index - 2 * num_steps + 1) (index - num_steps + 1) = 0 :=
      npStd_of_const hA _ _
    have h2 := hc.2
    rw [hvv, sub_self, abs_zero, hs1, hs2] at h2
    norm_num [Real.sqrt_zero] at h2

/-- C3 counterexample: an exactly constant history array with
`index = 200 ≥ 2 * CHECK_STEPS` samples is reported NOT stable: the
one-sigma check `|mean(A1) - mean(A2)| < sqrt(std(A1)^2 + std(A2)^2)` is a
strict inequality and both sides are zero, so `array_stable` returns
`False`, contrary to the claim that it returns "stable". -/
theorem constant_history_not_stable :
    2 * defaultConfig.CHECK_STEPS ≤ 200 ∧
      ¬ array_stable defaultConfig 200 defaultConfig.CHECK_STEPS
        (fun _ => (1/2 : ℝ)) 201 :=
  ⟨by norm_num [defaultConfig],
    not_stable_of_const defaultConfig 200 defaultConfig.CHECK_STEPS 201
      (fun _ => (1/2 : ℝ)) (1/2) (fun _ => rfl)⟩

/-- C3 (amended): `array_stable` reports "not stable" whenever the current
index is below `2 * num_steps`; and for a history array that is exactly
constant it also reports "not stable" — even once at least
`2 * CHECK_STEPS` samples exist — because the one-sigma combined-uncertainty
check is strict and both of its sides are zero (the absolute-drift check
alone passes). -/
theorem array_stable_guard_and_constant (cfg : Config)
    (index num_steps len : ℕ) (A : ℕ → ℝ) (c : ℝ)
    (h : index < 2 * num_steps ∨ ∀ j, A j = c) :
    ¬ array_stable cfg index num_steps A len := by
  rcases h with h | h
  · simp only [array_stable]
    rw [if_pos (Or.inl h)]
    exact not_false
  · exact not_stable_of_const cfg index num_steps len A c h

/-- Witness for the amended C3: a small index below twice the window. -/
theorem array_stable_guard_and_constant_witness :
    (5 < 2 * 100 ∨ ∀ j : ℕ, (fun _ => (0 : ℝ)) j = 0) ∧
      ¬ array_stable defaultConfig 5 100 (fun _ => (0 : ℝ)) 7000 :=
  ⟨Or.inl (by norm_num),
    array_stable_guard_and_constant defaultConfig 5 100 7000 (fun _ => (0 : ℝ)) 0
      (Or.inl (by norm_num))⟩

/-! ### Claims about `get_constraints` -/

/-- C9 counterexample: an example point whose length (2) differs from the
oracle's dimension count (1) is NOT rejected: `get_constraints` only exits
when the example has FEWER entries than `get_ndim()`, so this wrong
dimensionality passes startup, contrary to the claim that any length
mismatch is fatal. -/
theorem wrong_dimensionality_not_fatal :
    (Space.mk 1 [(1 : ℝ)/2, 1/2] (fun _ => true)).example_point.length ≠
        (Space.mk 1 [(1 : ℝ)/2, 1/2] (fun _ => true)).ndim ∧
      get_constraints (Space.mk 1 [(1 : ℝ)/2, 1/2] (fun _ => true)) =
        Except.ok (Space.mk 1 [(1 : ℝ)/2, 1/2] (fun _ => true)) := by
  constructor
  · norm_num
  · rfl

/-- C9 (amended): startup terminates fatally, with the descriptive message,
exactly in the too-short direction: whenever the example point has fewer
entries than the oracle's `get_ndim()`, `get_constraints` exits before any
sampling; an example point with extra entries passes the dimensionality
check. -/
theorem short_example_point_fatal (space : Space)
    (h : space.example_point.length < space.ndim) :
    get_constraints space =
      Except.error "Error: example point does not have enough dimensions" := by
  unfold get_constraints
  rw [if_pos h]

/-- Witness for the amended C9: one coordinate supplied, two required. -/
theorem short_example_point_fatal_witness :
    (Space.mk 2 [(1 : ℝ)/2] (fun _ => true)).example_point.length <
        (Space.mk 2 [(1 : ℝ)/2] (fun _ => true)).ndim ∧
      get_constraints (Space.mk 2 [(1 : ℝ)/2] (fun _ => true)) =
        Except.error "Error: example point does not have enough dimensions" :=
  ⟨by norm_num, short_example_point_fatal _ (by norm_num)⟩

/-! ### The orchestration loop -/

theorem stateAt_succ (cfg : Config) (apply : List ℝ → Bool)
    (noise : ℕ → List (List ℝ)) (points : List (List ℝ)) (step_size : ℝ)
    (i : ℕ) :
    stateAt cfg apply noise points step_size (i + 1) =
      stepState cfg apply noise i (stateAt cfg apply noise points step_size i) :=
  rfl

theorem sampler_loop_cases (cfg : Config) (apply : List ℝ → Bool)
    (noise : ℕ → List (List ℝ)) (points : List (List ℝ)) (step_size : ℝ)
    (max_steps ndims : ℕ) (fuel : ℕ) :
    ∀ i : ℕ,
      ((∀ j, i ≤ j → j < i + fuel →
          ¬ breakCond cfg apply noise max_steps ndims j
            (stateAt cfg apply noise points step_size j)) ∧
        sampler_loop cfg apply noise max_steps ndims fuel i
            (stateAt cfg apply noise points step_size i) =
          (stateAt cfg apply noise points step_size (i + fuel), none)) ∨
      (∃ b, i ≤ b ∧ b < i + fuel ∧
        breakCond cfg apply noise max_steps ndims b
          (stateAt cfg apply noise points step_size b) ∧
        (∀ j, i ≤ j → j < b →
          ¬ breakCond cfg apply noise max_steps ndims j
            (stateAt cfg apply noise points step_size j)) ∧
        sampler_loop cfg apply noise max_steps ndims fuel i
            (stateAt cfg apply noise points step_size i) =
          (stateAt cfg apply noise points step_size (b + 1), some b)) := by
  induction fuel with
  | zero =>
    intro i
    left
    refine ⟨fun j h1 h2 => absurd h2 (by omega), rfl⟩
  | succ fuel ih =>
    intro i
    by_cases hb : breakCond cfg apply noise max_steps ndims i
        (stateAt cfg apply noise points step_size i)
    · right
      refine ⟨i, le_refl i, by omega, hb, fun j h1 h2 => absurd h2 (by omega), ?_⟩
      simp only [sampler_loop, if_pos hb]
      rfl
    · rcases ih (i + 1) with ⟨hnb, heq⟩ | ⟨b, hb1, hb2, hbc, hnb, heq⟩
      · left
        constructor
        · intro j h1 h2
          rcases eq_or_lt_of_le h1 with rfl | hlt
          · exact hb
          · exact hnb j hlt (by omega)
        · simp only [sampler_loop, if_neg hb]
          rw [← stateAt_succ, heq]
          have harith : i + 1 + fuel = i + (fuel + 1) := by omega
          rw [harith]
      · right
        refine ⟨b, by omega, by omega, hbc, ?_, ?_⟩
        · intro j h1 h2
          rcases eq_or_lt_of_le h1 with rfl | hlt
          · exact hb
          · exact hnb j hlt h2
        · simp only [sampler_loop, if_neg hb]
          rw [← stateAt_succ, heq]

theorem run_stop_break (cfg : Config) (apply : List ℝ → Bool)
    (noise : ℕ → List (List ℝ)) (points : List (List ℝ)) (step_size : ℝ)
    (max_steps ndims i : ℕ)
    (hstop : (run_sampler cfg apply noise points step_size max_steps ndims).2 =
      some i) :
    i < max_steps ∧
      breakCond cfg apply noise max_steps ndims i
        (stateAt cfg apply noise points step_size i) := by
  have h0 : init_state points step_size =
      stateAt cfg apply noise points step_size 0 := rfl
  unfold run_sampler at hstop
  rw [h0] at hstop
  rcases sampler_loop_cases cfg apply noise points step_size max_steps ndims
      max_steps 0 with ⟨_, heq⟩ | ⟨b, _, hb2, hbc, _, heq⟩
  · rw [heq] at hstop
    simp at hstop
  · rw [heq] at hstop
    simp only [Option.some.injEq] at hstop
    subst hstop
    exact ⟨by omega, hbc⟩

/-- C6: the run transitions to CONVERGED (the loop `break`) only at a step
`i` with `i > 0` and `i mod CHECK_STEPS == 0`, and only when, at that very
check, the step-size controller reported "not modified" AND
`sampler_stable` holds of the freshly recorded per-dimension mean and
standard-deviation histories; an adaptation and a stability verdict at the
same check never together produce a stop. -/
theorem converged_only_at_clean_checks (cfg : Config) (apply : List ℝ → Bool)
    (noise : ℕ → List (List ℝ)) (points : List (List ℝ)) (step_size : ℝ)
    (max_steps ndims i : ℕ) (hcs : 0 < cfg.CHECK_STEPS)
    (hstop : (run_sampler cfg apply noise points step_size max_steps ndims).2 =
      some i) :
    (0 < i ∧ i % cfg.CHECK_STEPS = 0) ∧
      sampler_stable cfg max_steps ndims i
        (recordStep apply noise i
          (stateAt cfg apply noise points step_size i)).pos_mean
        (recordStep apply noise i
          (stateAt cfg apply noise points step_size i)).pos_std ∧
      (modify_step_size cfg i
          (stateAt cfg apply noise points step_size i).step_size
          (rateFn (recordStep apply noise i
            (stateAt cfg apply noise points step_size i)))).2 = false := by
  obtain ⟨-, hbc⟩ := run_stop_break cfg apply noise points step_size
    max_steps ndims i hstop
  exact ⟨⟨hbc.1.2, hbc.1.1⟩, hbc.2.1, hbc.2.2⟩

/-- C10: a step-size factor configured outside `(0, 1]` is coerced to `1`,
so `modify_step_size` always returns the step size numerically unchanged;
yet when the recent mean acceptance rate is below `MIN_ACCEPT_RATE` it still
reports "modified" = `true`, and any check whose report is `true` can never
be the CONVERGED stop of the run. -/
theorem coerced_factor_still_reports_modified (cfg : Config)
    (hf : cfg.STEP_SIZE_FACTOR ≤ 0 ∨ 1 < cfg.STEP_SIZE_FACTOR) :
    (∀ (index : ℕ) (s : ℝ) (accept_rate : ℕ → ℝ),
        (modify_step_size cfg index s accept_rate).1 = s) ∧
    (∀ (index : ℕ) (s : ℝ) (accept_rate : ℕ → ℝ), cfg.CHECK_STEPS ≤ index →
        npMean accept_rate (index - cfg.CHECK_STEPS + 1) (index + 1) <
          cfg.MIN_ACCEPT_RATE →
        (modify_step_size cfg index s accept_rate).2 = true) ∧
    (∀ (apply : List ℝ → Bool) (noise : ℕ → List (List ℝ))
        (points : List (List ℝ)) (step_size : ℝ) (max_steps ndims i : ℕ),
        (modify_step_size cfg i
            (stateAt cfg apply noise points step_size i).step_size
            (rateFn (recordStep apply noise i
              (stateAt cfg apply noise points step_size i)))).2 = true →
        (run_sampler cfg apply noise points step_size max_steps ndims).2 ≠
          some i) := by
  refine ⟨?_, ?_, ?_⟩
  · intro index s accept_rate
    simp only [modify_step_size, if_pos hf]
    split_ifs
    · rfl
    · exact mul_one s
    · exact div_one s
    · rfl
    · rfl
  · intro index s accept_rate hi hlow
    simp only [modify_step_size, if_neg (not_lt.mpr hi), if_pos hlow]
  · intro apply noise points step_size max_steps ndims i hmod hstop
    obtain ⟨-, hbc⟩ := run_stop_break cfg apply noise points step_size
      max_steps ndims i hstop
    rw [hbc.2.2] at hmod
    exact Bool.false_ne_true hmod

/-- Witness for C10: a configuration whose factor is 2. -/
theorem coerced_factor_still_reports_modified_witness :
    ((Config.mk (1/100) 7000 100 (1/5) (4/5) 2 (1/100)).STEP_SIZE_FACTOR ≤ 0 ∨
        1 < (Config.mk (1/100) 7000 100 (1/5) (4/5) 2 (1/100)).STEP_SIZE_FACTOR) ∧
      ((∀ (index : ℕ) (s : ℝ) (accept_rate : ℕ → ℝ),
          (modify_step_size (Config.mk (1/100) 7000 100 (1/5) (4/5) 2 (1/100))
            index s accept_rate).1 = s) ∧
        (∀ (index : ℕ) (s : ℝ) (accept_rate : ℕ → ℝ),
            (Config.mk (1/100) 7000 100 (1/5) (4/5) 2 (1/100)).CHECK_STEPS ≤ index →
            npMean accept_rate
                (index - (Config.mk (1/100) 7000 100 (1/5) (4/5) 2
                  (1/100)).CHECK_STEPS + 1) (index + 1) <
              (Config.mk (1/100) 7000 100 (1/5) (4/5) 2 (1/100)).MIN_ACCEPT_RATE →
            (modify_step_size (Config.mk (1/100) 7000 100 (1/5) (4/5) 2 (1/100))
              index s accept_rate).2 = true) ∧
        (∀ (apply : List ℝ → Bool) (noise : ℕ → List (List ℝ))
            (points : List (List ℝ)) (step_size : ℝ) (max_steps ndims i : ℕ),
            (modify_step_size (Config.mk (1/100) 7000 100 (1/5) (4/5) 2 (1/100)) i
                (stateAt (Config.mk (1/100) 7000 100 (1/5) (4/5) 2 (1/100)) apply
                  noise points step_size i).step_size
                (rateFn (recordStep apply noise i
                  (stateAt (Config.mk (1/100) 7000 100 (1/5) (4/5) 2 (1/100))
                    apply noise points step_size i)))).2 = true →
            (run_sampler (Config.mk (1/100) 7000 100 (1/5) (4/5) 2 (1/100)) apply
              noise points step_size max_steps ndims).2 ≠ some i)) :=
  ⟨Or.inr (by norm_num),
    coerced_factor_still_reports_modified
      (Config.mk (1/100) 7000 100 (1/5) (4/5) 2 (1/100)) (Or.inr (by norm_num))⟩

/-! ### A concrete converging trace (two chains, one dimension) -/

theorem mod1_of_unit {x : ℝ} (h0 : 0 ≤ x) (h1 : x < 1) : mod1 x = x :=
  Int.fract_eq_self.mpr ⟨h0, h1⟩

theorem oscOracle_accepts_a : oscOracle [(2 : ℝ)/5] = true := by
  simp [oscOracle]

theorem oscOracle_accepts_b : oscOracle [(31 : ℝ)/50] = true := by
  simp [oscOracle]

theorem oscOracle_rejects : oscOracle [(3 : ℝ)/4] = false := by
  simp only [oscOracle, decide_eq_false_iff_not]
  rintro (h | h | h) <;> · simp only [List.cons.injEq, and_true] at h; norm_num at h

theorem propose_single (p n : ℝ) : propose [p] [n] = [mod1 (p + n)] := rfl

theorem osc_chain_accepted (p n q : ℝ) (hpn : p + n = q) (h0 : 0 ≤ q)
    (h1 : q < 1) (hacc : oscOracle [q] = true) :
    step_chain oscOracle [p] [n] = ([q], true) := by
  have hp : propose [p] [n] = [q] := by
    rw [propose_single, hpn, mod1_of_unit h0 h1]
  rw [step_chain_eq, hp, hacc]
  simp

theorem osc_chain_rejected :
    step_chain oscOracle [(1 : ℝ)/2] [(1 : ℝ)/4] = ([(1 : ℝ)/2], false) := by
  have hp : propose [(1 : ℝ)/2] [(1 : ℝ)/4] = [(3 : ℝ)/4] := by
    rw [propose_single]
    have hv : (1 : ℝ)/2 + 1/4 = 3/4 := by norm_num
    rw [hv, mod1_of_unit (by norm_num) (by norm_num)]
  rw [step_chain_eq, hp, oscOracle_rejects]
  simp

theorem run_step_pair (apply : List ℝ → Bool) (p0 p1 n0 n1 q0 : List ℝ)
    (h0 : step_chain apply p0 n0 = (q0, true))
    (h1 : step_chain apply p1 n1 = (p1, false)) :
    run_step [p0, p1] apply [n0, n1] = ([q0, p1], 1/2) := by
  unfold run_step
  simp only [List.zipWith_cons_cons, List.zipWith_nil_right, h0, h1]
  simp [List.filter]

theorem run_step_osc (i : ℕ) :
    run_step [[oscPoint i], [(1 : ℝ)/2]] oscOracle (oscNoise i) =
      ([[oscPoint (i + 1)], [(1 : ℝ)/2]], 1/2) := by
  by_cases h0 : i = 0
  · subst h0
    have hn : oscNoise 0 = [[-(1/10 : ℝ)], [(1 : ℝ)/4]] := by simp [oscNoise]
    have hp : oscPoint 0 = 1/2 := by simp [oscPoint]
    have hq : oscPoint 1 = 2/5 := by simp [oscPoint]
    rw [hn, hp, hq]
    exact run_step_pair _ _ _ _ _ _
      (osc_chain_accepted _ _ _ (by norm_num) (by norm_num) (by norm_num)
        oscOracle_accepts_a)
      osc_chain_rejected
  · rcases Nat.mod_two_eq_zero_or_one i with hpar | hpar
    · have hn : oscNoise i = [[-(11/50 : ℝ)], [(1 : ℝ)/4]] := by
        simp [oscNoise, h0, hpar]
      have hp : oscPoint i = 31/50 := by simp [oscPoint, h0, hpar]
      have hq : oscPoint (i + 1) = 2/5 := by
        have h1 : (i + 1) % 2 = 1 := by omega
        simp [oscPoint, h1]
      rw [hn, hp, hq]
      exact run_step_pair _ _ _ _ _ _
        (osc_chain_accepted _ _ _ (by norm_num) (by norm_num) (by norm_num)
          oscOracle_accepts_a)
        osc_chain_rejected
    · have hn : oscNoise i = [[(11 : ℝ)/50], [(1 : ℝ)/4]] := by
        simp [oscNoise, h0, hpar]
      have hp : oscPoint i = 2/5 := by simp [oscPoint, h0, hpar]
      have hq : oscPoint (i + 1) = 31/50 := by
        have h1 : (i + 1) % 2 = 0 := by omega
        have h2 : i + 1 ≠ 0 := by omega
        simp [oscPoint, h1, h2]
      rw [hn, hp, hq]
      exact run_step_pair _ _ _ _ _ _
        (osc_chain_accepted _ _ _ (by norm_num) (by norm_num) (by norm_num)
          oscOracle_accepts_b)
        osc_chain_rejected

theorem calc_pos_mean_pair (x y : ℝ) : calc_pos_mean [[x], [y]] = [(x + y)/2] := by
  unfold calc_pos_mean
  simp [List.range_succ]

theorem calc_std_mean_pair (x y : ℝ) :
    calc_std_mean [[x], [y]] =
      [Real.sqrt (((x - (x + y)/2) ^ 2 + (y - (x + y)/2) ^ 2) / 2)] := by
  unfold calc_std_mean
  simp [List.range_succ]

theorem calc_mean_osc_a : calc_pos_mean [[(2 : ℝ)/5], [(1 : ℝ)/2]] = [(9 : ℝ)/20] := by
  rw [calc_pos_mean_pair]
  norm_num

theorem calc_mean_osc_b : calc_pos_mean [[(31 : ℝ)/50], [(1 : ℝ)/2]] = [(14 : ℝ)/25] := by
  rw [calc_pos_mean_pair]
  norm_num

theorem calc_std_osc_a : calc_std_mean [[(2 : ℝ)/5], [(1 : ℝ)/2]] = [(1 : ℝ)/20] := by
  rw [calc_std_mean_pair]
  have h : (((2 : ℝ)/5 - (2/5 + 1/2)/2) ^ 2 + ((1 : ℝ)/2 - (2/5 + 1/2)/2) ^ 2) / 2 =
      ((1 : ℝ)/20) ^ 2 := by norm_num
  rw [h, Real.sqrt_sq (by norm_num : (0 : ℝ) ≤ 1/20)]

theorem calc_std_osc_b : calc_std_mean [[(31 : ℝ)/50], [(1 : ℝ)/2]] = [(3 : ℝ)/50] := by
  rw [calc_std_mean_pair]
  have h : (((31 : ℝ)/50 - (31/50 + 1/2)/2) ^ 2 + ((1 : ℝ)/2 - (31/50 + 1/2)/2) ^ 2) / 2 =
      ((3 : ℝ)/50) ^ 2 := by norm_num
  rw [h, Real.sqrt_sq (by norm_num : (0 : ℝ) ≤ 3/50)]

theorem range_map_snoc {α : Type} (g : ℕ → α) (i : ℕ) :
    (List.range i).map g ++ [g i] = (List.range (i + 1)).map g := by
  rw [List.range_succ, List.map_append]
  rfl

theorem recordStep_osc (i : ℕ) :
    recordStep oscOracle oscNoise i (oscState i) = oscState (i + 1) := by
  unfold recordStep
  simp only [oscState]
  rw [run_step_osc i]
  rcases Nat.mod_two_eq_zero_or_one i with hpar | hpar
  · have hq : oscPoint (i + 1) = 2/5 := by
      have h1 : (i + 1) % 2 = 1 := by omega
      simp [oscPoint, h1]
    have hm : oscMeanRow i = 9/20 := by simp [oscMeanRow, hpar]
    have hs : oscStdRow i = 1/20 := by simp [oscStdRow, hpar]
    simp only [hq, calc_mean_osc_a, calc_std_osc_a]
    rw [← hm, ← hs, range_map_snoc (fun j => [oscMeanRow j]) i,
      range_map_snoc (fun j => [oscStdRow j]) i, ← List.replicate_succ']
  · have hq : oscPoint (i + 1) = 31/50 := by
      have h1 : (i + 1) % 2 = 0 := by omega
      have h2 : i + 1 ≠ 0 := by omega
      simp [oscPoint, h1, h2]
    have hm : oscMeanRow i = 14/25 := by simp [oscMeanRow, hpar]
    have hs : oscStdRow i = 3/50 := by simp [oscStdRow, hpar]
    simp only [hq, calc_mean_osc_b, calc_std_osc_b]
    rw [← hm, ← hs, range_map_snoc (fun j => [oscMeanRow j]) i,
      range_map_snoc (fun j => [oscStdRow j]) i, ← List.replicate_succ']

theorem getD_replicate_lt {α : Type} (a d : α) (n j : ℕ) (hj : j < n) :
    (List.replicate n a).getD j d = a := by
  rw [List.getD_eq_getElem _ _ (by simpa using hj), List.getElem_replicate]

theorem modify_osc (i : ℕ) (hi : 100 ≤ i) :
    modify_step_size defaultConfig i (1/100)
      (fun j => (List.replicate (i + 1) ((1 : ℝ)/2)).getD j 0) = (1/100, false) := by
  have hcs : defaultConfig.CHECK_STEPS = 100 := rfl
  have hmin : defaultConfig.MIN_ACCEPT_RATE = 1/5 := rfl
  have hmax : defaultConfig.MAX_ACCEPT_RATE = 4/5 := rfl
  have hmean : npMean (fun j => (List.replicate (i + 1) ((1 : ℝ)/2)).getD j 0)
      (i - 100 + 1) (i + 1) = 1/2 := by
    unfold npMean
    have hcongr : ∀ j ∈ Finset.Ico (i - 100 + 1) (i + 1),
        (List.replicate (i + 1) ((1 : ℝ)/2)).getD j 0 = 1/2 := by
      intro j hj
      rw [Finset.mem_Ico] at hj
      exact getD_replicate_lt _ _ _ _ (by omega)
    rw [Finset.sum_congr rfl hcongr, Finset.sum_const, Nat.card_Ico, nsmul_eq_mul]
    have hcard : i + 1 - (i - 100 + 1) = 100 := by omega
    rw [hcard]
    norm_num
  simp only [modify_step_size, hcs, hmin, hmax]
  rw [if_neg (by omega : ¬ i < 100), hmean,
    if_neg (by norm_num : ¬ (1 : ℝ)/2 < 1/5), if_neg (by norm_num : ¬ (4 : ℝ)/5 < 1/2)]

theorem stateAt_osc (i : ℕ) :
    stateAt defaultConfig oscOracle oscNoise [[(1 : ℝ)/2], [(1 : ℝ)/2]] (1/100) i =
      oscState i := by
  induction i with
  | zero =>
    show init_state [[(1 : ℝ)/2], [(1 : ℝ)/2]] (1/100) = oscState 0
    unfold init_state oscState
    simp [oscPoint]
  | succ i ih =>
    rw [stateAt_succ, ih]
    unfold stepState
    rw [recordStep_osc i]
    unfold adaptStep
    by_cases he : evaluate_sampler defaultConfig i
    · rw [if_pos he]
      have hi : 100 ≤ i := by
        obtain ⟨hmod, hpos⟩ := he
        have hcs : defaultConfig.CHECK_STEPS = 100 := rfl
        rw [hcs] at hmod
        omega
      have hms : modify_step_size defaultConfig i ((oscState (i + 1)).step_size)
          (rateFn (oscState (i + 1))) = (1/100, false) := by
        have h1 : (oscState (i + 1)).step_size = 1/100 := rfl
        have h2 : rateFn (oscState (i + 1)) =
            fun j => (List.replicate (i + 1) ((1 : ℝ)/2)).getD j 0 := rfl
        rw [h1, h2]
        exact modify_osc i hi
      simp only [hms]
      simp [oscState]
    · rw [if_neg he]

theorem sum_Ico_parity (f : ℕ → ℝ) (a b : ℝ) : ∀ (k m : ℕ),
    (∀ j, m ≤ j → j < m + 2 * k → j % 2 = 0 → f j = a) →
    (∀ j, m ≤ j → j < m + 2 * k → j % 2 = 1 → f j = b) →
    ∑ j in Finset.Ico m (m + 2 * k), f j = k * (a + b) := by
  intro k
  induction k with
  | zero => intro m _ _; simp
  | succ k ih =>
    intro m h0 h1
    have e1 : m + 2 * (k + 1) = (m + 2 * k + 1) + 1 := by omega
    rw [e1, Finset.sum_Ico_succ_top (by omega), Finset.sum_Ico_succ_top (by omega),
      ih m (fun j hj1 hj2 => h0 j hj1 (by omega))
        (fun j hj1 hj2 => h1 j hj1 (by omega))]
    rcases Nat.mod_two_eq_zero_or_one (m + 2 * k) with hp | hp
    · rw [h0 (m + 2 * k) (by omega) (by omega) hp,
        h1 (m + 2 * k + 1) (by omega) (by omega) (by omega)]
      push_cast
      ring
    · rw [h1 (m + 2 * k) (by omega) (by omega) hp,
        h0 (m + 2 * k + 1) (by omega) (by omega) (by omega)]
      push_cast
      ring

theorem npMean_parity (f : ℕ → ℝ) (a b : ℝ) (m k : ℕ) (hk : k ≠ 0)
    (h0 : ∀ j, m ≤ j → j < m + 2 * k → j % 2 = 0 → f j = a)
    (h1 : ∀ j, m ≤ j → j < m + 2 * k → j % 2 = 1 → f j = b) :
    npMean f m (m + 2 * k) = (a + b) / 2 := by
  unfold npMean
  rw [sum_Ico_parity f a b k m h0 h1]
  have hc : (m + 2 * k - m : ℕ) = 2 * k := by omega
  rw [hc]
  have hk' : ((k : ℝ)) ≠ 0 := Nat.cast_ne_zero.mpr hk
  push_cast
  field_simp
  ring

theorem npVar_parity (f : ℕ → ℝ) (a b : ℝ) (m k : ℕ) (hk : k ≠ 0)
    (h0 : ∀ j, m ≤ j → j < m + 2 * k → j % 2 = 0 → f j = a)
    (h1 : ∀ j, m ≤ j → j < m + 2 * k → j % 2 = 1 → f j = b) :
    npVar f m (m + 2 * k) = ((a - b) / 2) ^ 2 := by
  unfold npVar
  rw [npMean_parity f a b m k hk h0 h1]
  have hcongr : ∀ j ∈ Finset.Ico m (m + 2 * k),
      (f j - (a + b) / 2) ^ 2 = ((a - b) / 2) ^ 2 := by
    intro j hj
    rw [Finset.mem_Ico] at hj
    rcases Nat.mod_two_eq_zero_or_one j with hp | hp
    · rw [h0 j hj.1 hj.2 hp]
      ring
    · rw [h1 j hj.1 hj.2 hp]
      ring
  rw [Finset.sum_congr rfl hcongr, Finset.sum_const, Nat.card_Ico, nsmul_eq_mul]
  have hc : (m + 2 * k - m : ℕ) = 2 * k := by omega
  rw [hc]
  have hk' : ((k : ℝ)) ≠ 0 := Nat.cast_ne_zero.mpr hk
  push_cast
  field_simp
  ring

theorem colFn_range_map (g : ℕ → ℝ) (n j : ℕ) (hj : j < n) :
    colFn ((List.range n).map (fun j => [g j])) 0 j = g j := by
  unfold colFn
  have hlen : j < ((List.range n).map (fun j => [g j])).length := by simpa using hj
  rw [List.getD_eq_getElem ((List.range n).map (fun j => [g j])) [] hlen,
    List.getElem_map, List.getElem_range]
  rfl

theorem array_stable_osc_col (g : ℕ → ℝ) (a b : ℝ)
    (hg : ∀ j, j < 201 → g j = if j % 2 = 0 then a else b) (hab : a ≠ b) :
    array_stable defaultConfig 200 defaultConfig.CHECK_STEPS
      (colFn ((List.range 201).map (fun j => [g j])) 0) 201 := by
  have hcs : defaultConfig.CHECK_STEPS = 100 := rfl
  have htol : defaultConfig.TOLERANCE = 1/100 := rfl
  rw [hcs]
  simp only [array_stable]
  rw [if_neg (by norm_num)]
  have hA0 : ∀ lo hi : ℕ, hi ≤ 201 →
      (∀ j, lo ≤ j → j < hi → j % 2 = 0 →
        colFn ((List.range 201).map (fun j => [g j])) 0 j = a) := by
    intro lo hi hhi j hj1 hj2 hp
    rw [colFn_range_map g 201 j (by omega), hg j (by omega), if_pos hp]
  have hA1 : ∀ lo hi : ℕ, hi ≤ 201 →
      (∀ j, lo ≤ j → j < hi → j % 2 = 1 →
        colFn ((List.range 201).map (fun j => [g j])) 0 j = b) := by
    intro lo hi hhi j hj1 hj2 hp
    rw [colFn_range_map g 201 j (by omega), hg j (by omega)]
    rw [if_neg (by omega)]
  have hm1 : npMean (colFn ((List.range 201).map (fun j => [g j])) 0) 101 201 =
      (a + b) / 2 := by
    rw [show (201 : ℕ) = 101 + 2 * 50 from by norm_num]
    exact npMean_parity _ a b 101 50 (by norm_num)
      (hA0 101 (101 + 2 * 50) (by norm_num)) (hA1 101 (101 + 2 * 50) (by norm_num))
  have hm2 : npMean (colFn ((List.range 201).map (fun j => [g j])) 0) 1 101 =
      (a + b) / 2 := by
    rw [show (101 : ℕ) = 1 + 2 * 50 from by norm_num]
    exact npMean_parity _ a b 1 50 (by norm_num)
      (hA0 1 (1 + 2 * 50) (by norm_num)) (hA1 1 (1 + 2 * 50) (by norm_num))
  have hv1 : npVar (colFn ((List.range 201).map (fun j => [g j])) 0) 101 201 =
      ((a - b) / 2) ^ 2 := by
    rw [show (201 : ℕ) = 101 + 2 * 50 from by norm_num]
    exact npVar_parity _ a b 101 50 (by norm_num)
      (hA0 101 (101 + 2 * 50) (by norm_num)) (hA1 101 (101 + 2 * 50) (by norm_num))
  have hv2 : npVar (colFn ((List.range 201).map (fun j => [g j])) 0) 1 101 =
      ((a - b) / 2) ^ 2 := by
    rw [show (101 : ℕ) = 1 + 2 * 50 from by norm_num]
    exact npVar_parity _ a b 1 50 (by norm_num)
      (hA0 1 (1 + 2 * 50) (by norm_num)) (hA1 1 (1 + 2 * 50) (by norm_num))
  norm_num
  constructor
  · rw [hm1, hm2, sub_self, abs_zero, htol]
    norm_num
  · rw [hm1, hm2, sub_self, abs_zero]
    apply Real.sqrt_pos.mpr
    unfold npStd
    rw [Real.sq_sqrt (by rw [hv1]; positivity), Real.sq_sqrt (by rw [hv2]; positivity),
      hv1, hv2]
    have hne : (a - b) / 2 ≠ 0 := div_ne_zero (sub_ne_zero.mpr hab) (by norm_num)
    have hpos : 0 < ((a - b) / 2) ^ 2 :=
      (sq_nonneg _).lt_of_ne (Ne.symm (pow_ne_zero 2 hne))
    linarith

theorem osc_no_break (j : ℕ) (hj : j < 200) :
    ¬ breakCond defaultConfig oscOracle oscNoise 201 1 j
      (stateAt defaultConfig oscOracle oscNoise [[(1 : ℝ)/2], [(1 : ℝ)/2]]
        (1/100) j) := by
  rw [stateAt_osc]
  rintro ⟨⟨hmod, hpos⟩, hstable, -⟩
  have hcs : defaultConfig.CHECK_STEPS = 100 := rfl
  rw [hcs] at hmod
  have hj100 : j = 100 := by omega
  subst hj100
  have harr := hstable.1 0 (by norm_num)
  revert harr
  simp only [array_stable, hcs]
  rw [if_pos (Or.inl (by norm_num))]
  exact not_false

theorem osc_break_200 :
    breakCond defaultConfig oscOracle oscNoise 201 1 200
      (stateAt defaultConfig oscOracle oscNoise [[(1 : ℝ)/2], [(1 : ℝ)/2]]
        (1/100) 200) := by
  rw [stateAt_osc]
  refine ⟨⟨rfl, by norm_num⟩, ?_, ?_⟩
  · rw [recordStep_osc 200]
    constructor
    · intro d hd
      have hd0 : d = 0 := by omega
      subst hd0
      have hpm : (oscState 201).pos_mean =
          (List.range 201).map (fun j => [oscMeanRow j]) := rfl
      rw [hpm]
      exact array_stable_osc_col oscMeanRow (9/20) (14/25) (fun j _ => rfl)
        (by norm_num)
    · intro d hd
      have hd0 : d = 0 := by omega
      subst hd0
      have hps : (oscState 201).pos_std =
          (List.range 201).map (fun j => [oscStdRow j]) := rfl
      rw [hps]
      exact array_stable_osc_col oscStdRow (1/20) (3/50) (fun j _ => rfl)
        (by norm_num)
  · rw [recordStep_osc 200]
    have h1 : (oscState 200).step_size = 1/100 := rfl
    have h2 : rateFn (oscState 201) =
        fun j => (List.replicate 201 ((1 : ℝ)/2)).getD j 0 := rfl
    rw [h1, h2, show (201 : ℕ) = 200 + 1 from by norm_num,
      modify_osc 200 (by norm_num)]

theorem oscRun_stop : oscRun.2 = some 200 := by
  have h0 : init_state [[(1 : ℝ)/2], [(1 : ℝ)/2]] ((1 : ℝ)/100) =
      stateAt defaultConfig oscOracle oscNoise [[(1 : ℝ)/2], [(1 : ℝ)/2]]
        (1/100) 0 := rfl
  unfold oscRun run_sampler
  rw [h0]
  rcases sampler_loop_cases defaultConfig oscOracle oscNoise
      [[(1 : ℝ)/2], [(1 : ℝ)/2]] (1/100) 201 1 201 0 with
    ⟨hnb, heq⟩ | ⟨b, hb1, hb2, hbc, hnb, heq⟩
  · exact absurd osc_break_200 (hnb 200 (by omega) (by omega))
  · have hb200 : b = 200 := by
      by_contra hne
      rcases Nat.lt_or_ge b 200 with hlt | hge
      · exact osc_no_break b hlt hbc
      · have h200 : 200 < b := by omega
        exact (hnb 200 (by omega) h200) osc_break_200
    subst hb200
    rw [heq]

/-- C8 counterexample: a run with `max_steps = 201` that transitions to
CONVERGED at step 200 (the loop `break`, `stopStep = some 200`,
"Sampler stopped after 200 steps") nevertheless emits the
reached-maximum-number-of-steps warning, because the `break` happened
exactly at step `max_steps - 1 = 200` and the warning test is
`i == max_steps - 1` — so the warning is NOT equivalent to "reached
`MAX_STEPS - 1` without a transition to CONVERGED". -/
theorem warning_despite_convergence :
    oscRun.2 = some 200 ∧ emits_warning 201 oscRun.2 := by
  refine ⟨oscRun_stop, ?_⟩
  rw [emits_warning, oscRun_stop]
  rfl

/-- C8 (amended): for `max_steps ≥ 1` the warning is emitted iff the final
value of the loop variable equals `max_steps - 1`, i.e. iff the run either
exhausted the budget without a CONVERGED break or broke exactly at step
`max_steps - 1` (a convergence at the very last step also emits the
warning); in every case the ensemble produced so far is returned as the
result. -/
theorem warning_iff_last_step (cfg : Config) (apply : List ℝ → Bool)
    (noise : ℕ → List (List ℝ)) (points : List (List ℝ)) (step_size : ℝ)
    (max_steps ndims : ℕ) (h : 1 ≤ max_steps) :
    (emits_warning max_steps
        (run_sampler cfg apply noise points step_size max_steps ndims).2 ↔
      ((run_sampler cfg apply noise points step_size max_steps ndims).2 = none ∨
        (run_sampler cfg apply noise points step_size max_steps ndims).2 =
          some (max_steps - 1))) ∧
    (run_sampler cfg apply noise points step_size max_steps ndims).1.points =
      (stateAt cfg apply noise points step_size
        (finalIndex max_steps
          (run_sampler cfg apply noise points step_size max_steps ndims).2 +
        1)).points := by
  have h0 : init_state points step_size =
      stateAt cfg apply noise points step_size 0 := rfl
  rcases sampler_loop_cases cfg apply noise points step_size max_steps ndims
      max_steps 0 with ⟨hnb, heq⟩ | ⟨b, hb1, hb2, hbc, hnb, heq⟩
  · have hrun : run_sampler cfg apply noise points step_size max_steps ndims =
        (stateAt cfg apply noise points step_size (0 + max_steps), none) := by
      unfold run_sampler
      rw [h0, heq]
    rw [hrun]
    constructor
    · simp [emits_warning, finalIndex]
    · have harith : finalIndex max_steps (none : Option ℕ) + 1 = 0 + max_steps := by
        simp only [finalIndex, Option.getD]
        omega
      rw [harith]
  · have hrun : run_sampler cfg apply noise points step_size max_steps ndims =
        (stateAt cfg apply noise points step_size (b + 1), some b) := by
      unfold run_sampler
      rw [h0, heq]
    rw [hrun]
    constructor
    · simp [emits_warning, finalIndex]
    · simp [finalIndex]

/-- Witness for the amended C8: a one-step budget, where the loop cannot
break (no check runs at step 0) and the warning is emitted. -/
theorem warning_iff_last_step_witness :
    1 ≤ 1 ∧
      ((emits_warning 1
          (run_sampler defaultConfig (fun _ => true) (fun _ => []) [] 0 1 0).2 ↔
        ((run_sampler defaultConfig (fun _ => true) (fun _ => []) [] 0 1 0).2 =
            none ∨
          (run_sampler defaultConfig (fun _ => true) (fun _ => []) [] 0 1 0).2 =
            some (1 - 1))) ∧
      (run_sampler defaultConfig (fun _ => true) (fun _ => []) [] 0 1 0).1.points =
        (stateAt defaultConfig (fun _ => true) (fun _ => []) [] 0
          (finalIndex 1
            (run_sampler defaultConfig (fun _ => true) (fun _ => []) [] 0 1 0).2 +
          1)).points) :=
  ⟨le_refl 1,
    warning_iff_last_step defaultConfig (fun _ => true) (fun _ => []) [] 0 1 0
      (le_refl 1)⟩

/-- Witness for C6: the concrete run on `oscOracle`/`oscNoise` stops at step
200, which is a clean check: positive, divisible by `CHECK_STEPS`, with the
controller reporting "not modified" and `sampler_stable` true. -/
theorem converged_only_at_clean_checks_witness :
    0 < defaultConfig.CHECK_STEPS ∧
      ((0 < 200 ∧ 200 % defaultConfig.CHECK_STEPS = 0) ∧
        sampler_stable defaultConfig 201 1 200
          (recordStep oscOracle oscNoise 200
            (stateAt defaultConfig oscOracle oscNoise [[(1 : ℝ)/2], [(1 : ℝ)/2]]
              (1/100) 200)).pos_mean
          (recordStep oscOracle oscNoise 200
            (stateAt defaultConfig oscOracle oscNoise [[(1 : ℝ)/2], [(1 : ℝ)/2]]
              (1/100) 200)).pos_std ∧
        (modify_step_size defaultConfig 200
            (stateAt defaultConfig oscOracle oscNoise [[(1 : ℝ)/2], [(1 : ℝ)/2]]
              (1/100) 200).step_size
            (rateFn (recordStep oscOracle oscNoise 200
              (stateAt defaultConfig oscOracle oscNoise
                [[(1 : ℝ)/2], [(1 : ℝ)/2]] (1/100) 200)))).2 = false) :=
  ⟨by norm_num [defaultConfig],
    converged_only_at_clean_checks defaultConfig oscOracle oscNoise
      [[(1 : ℝ)/2], [(1 : ℝ)/2]] (1/100) 201 1 200
      (by norm_num [defaultConfig]) oscRun_stop⟩

end HyperspaceSampler
